import Mathlib

/-!
# Verification of the batch video transcoder (`src/main.py`)

Shallow embedding of the progress-streaming / cancellation core of the
program: the encode planner (`build_plan`), the resolution cap
(`maybe_add_scale`), the collision-free output path resolver
(`ensure_unique_path`), the progress-line parser, and the background
orchestrator (`worker_thread`).

Modelling conventions:
* Python `float` values (durations, progress seconds) are modelled as `ℚ`.
* Python `str` is Lean `String`; the handful of string primitives the code
  uses (`strip`, `startswith`, `split("=", 1)[1]`, `int(...)`) are embedded
  below operating on `String.data` (`List Char`).  `int(...)` is modelled
  for optional ASCII whitespace, an optional sign and a nonempty run of
  ASCII digits (Python additionally accepts underscores between digits and
  Unicode digit/space characters; the progress stream of the encoder
  never produces those).
* The filesystem is modelled as the list of path strings that exist when
  the run starts; probing and encoding are external effects, so each
  `FileJob` carries the externally determined probe results, launch
  outcome, progress lines, exit code and possible mid-stream I/O error.
* Wall-clock time (`time.time()`) is an oracle `clock : Nat → ℚ` indexed
  by the number of calls made so far; the cancellation flag
  (`stop_flag.is_set()`) is an oracle `stop : Nat → Bool` indexed by the
  number of checks made so far.
* Code that can raise an uncaught exception (list index out of range in
  `maybe_add_scale`, `with_suffix` on an invalid suffix) is modelled with
  `Option`: `none` means the thread dies without producing a stream.
-/

/-! ## Characters, digits and the model of Python `int(...)` / `str.strip()` -/

/-- ASCII whitespace recognised by the model of Python `str.strip()`. -/
def isPySpace (c : Char) : Bool :=
  c.toNat = 32 || c.toNat = 9 || c.toNat = 10 || c.toNat = 13 ||
    c.toNat = 11 || c.toNat = 12

/-- ASCII decimal digit test. -/
def isDigitCh (c : Char) : Bool := 48 ≤ c.toNat && c.toNat ≤ 57

/-- Numeric value of an ASCII digit character. -/
def digitVal (c : Char) : Nat := c.toNat - 48

/-- The ASCII digit character for a digit value (canonical decimal digit,
as produced by Python `str` of a nonnegative integer). -/
def digitChar : Nat → Char
  | 0 => '0' | 1 => '1' | 2 => '2' | 3 => '3' | 4 => '4'
  | 5 => '5' | 6 => '6' | 7 => '7' | 8 => '8' | _ => '9'

/-- Reversed decimal digit list of `n` (least significant digit first);
`fuel` bounds the recursion and any `fuel > n` is enough. -/
def toDigitsRev : Nat → Nat → List Char
  | 0, _ => []
  | fuel + 1, n =>
    if n < 10 then [digitChar n]
    else digitChar (n % 10) :: toDigitsRev fuel (n / 10)

/-- Decimal string of a natural number, as Python `str(n)` / f-string
interpolation produces it. -/
def natDecimal (n : Nat) : String := ⟨(toDigitsRev (n + 1) n).reverse⟩

/-- Decimal string of an integer, as Python `str(n)` produces it. -/
def intDecimal (n : Int) : String :=
  if n < 0 then "-" ++ natDecimal n.natAbs else natDecimal n.toNat

/-- Model of Python `str.strip()`: drop ASCII whitespace at both ends. -/
def pyStrip (s : String) : String :=
  ⟨((s.data.dropWhile isPySpace).reverse.dropWhile isPySpace).reverse⟩

/-- Value of a nonempty all-digit character list, reading left to right
(most significant digit first); otherwise `none`. -/
def pyDigits? (cs : List Char) : Option Nat :=
  if cs.isEmpty then none
  else if cs.all isDigitCh then
    some (cs.foldl (fun a c => a * 10 + digitVal c) 0)
  else none

/-- Model of Python `int(str)`: strip whitespace, optional sign, then a
nonempty run of decimal digits; failure (`ValueError`) is `none`. -/
def pyInt? (s : String) : Option Int :=
  match (pyStrip s).data with
  | [] => none
  | c :: rest =>
    if c = '-' then (pyDigits? rest).map (fun n => -(n : Int))
    else if c = '+' then (pyDigits? rest).map (fun n => (n : Int))
    else (pyDigits? (c :: rest)).map (fun n => (n : Int))

/-- Model of Python `str.startswith(pre)`. -/
def strStartsWith (s pre : String) : Bool := pre.data.isPrefixOf s.data

/-- Model of dropping the first `n` characters of a Python string
(`s[n:]`). -/
def strDrop (s : String) (n : Nat) : String := ⟨s.data.drop n⟩

theorem digitChar_isDigit (d : Nat) : isDigitCh (digitChar d) = true := by
  rcases d with _ | _ | _ | _ | _ | _ | _ | _ | _ | d <;> rfl

theorem digitVal_digitChar {d : Nat} (hd : d < 10) :
    digitVal (digitChar d) = d := by
  rcases d with _ | _ | _ | _ | _ | _ | _ | _ | _ | d <;> first
    | rfl
    | (rcases d with _ | d
       · rfl
       · omega)

theorem not_space_of_digit {c : Char} (h : isDigitCh c = true) :
    isPySpace c = false := by
  simp only [isDigitCh, Bool.and_eq_true, decide_eq_true_eq] at h
  simp only [isPySpace, Bool.or_eq_false_iff, decide_eq_false_iff_not]
  omega

theorem toDigitsRev_ne_nil {fuel n : Nat} (h : n < fuel) :
    toDigitsRev fuel n ≠ [] := by
  cases fuel with
  | zero => omega
  | succ f =>
    simp only [toDigitsRev]
    split <;> simp

theorem toDigitsRev_all_digits :
    ∀ fuel n, n < fuel → ∀ c ∈ toDigitsRev fuel n, isDigitCh c = true := by
  intro fuel
  induction fuel with
  | zero => intro n h; omega
  | succ f ih =>
    intro n _ c hc
    simp only [toDigitsRev] at hc
    split at hc
    · simp only [List.mem_singleton] at hc
      exact hc ▸ digitChar_isDigit n
    · rcases List.mem_cons.mp hc with h1 | h1
      · exact h1 ▸ digitChar_isDigit (n % 10)
      · have hn : ¬ n < 10 := by assumption
        have : n / 10 < f := by omega
        exact ih (n / 10) this c h1

theorem toDigitsRev_foldr :
    ∀ fuel n, n < fuel →
      (toDigitsRev fuel n).foldr (fun c a => a * 10 + digitVal c) 0 = n := by
  intro fuel
  induction fuel with
  | zero => intro n h; omega
  | succ f ih =>
    intro n hn
    simp only [toDigitsRev]
    split
    · next h10 =>
      simp [List.foldr, digitVal_digitChar h10]
    · next h10 =>
      have hdiv : n / 10 < f := by omega
      simp only [List.foldr_cons, ih (n / 10) hdiv,
        digitVal_digitChar (Nat.mod_lt n (by omega))]
      omega

theorem pyDigits?_natDecimal (n : Nat) :
    pyDigits? (natDecimal n).data = some n := by
  have hlt : n < n + 1 := Nat.lt_succ_self n
  have hne : toDigitsRev (n + 1) n ≠ [] := toDigitsRev_ne_nil hlt
  have hall : ∀ c ∈ (toDigitsRev (n + 1) n).reverse, isDigitCh c = true := by
    intro c hc
    exact toDigitsRev_all_digits (n + 1) n hlt c (List.mem_reverse.mp hc)
  simp only [natDecimal, pyDigits?]
  rw [if_neg, if_pos]
  · rw [List.foldl_reverse]
    exact congrArg some (toDigitsRev_foldr (n + 1) n hlt)
  · exact List.all_eq_true.mpr hall
  · simp [List.isEmpty_iff, hne]

theorem natDecimal_injective : Function.Injective natDecimal := by
  intro m n h
  have := pyDigits?_natDecimal m
  rw [h, pyDigits?_natDecimal n] at this
  exact (Option.some_injective _ this).symm

theorem dropWhile_eq_self_of_none {α} (p : α → Bool) :
    ∀ l : List α, (∀ c ∈ l, p c = false) → l.dropWhile p = l := by
  intro l h
  cases l with
  | nil => rfl
  | cons a l =>
    rw [List.dropWhile_cons_of_neg]
    simp [h a (List.mem_cons_self a l)]

theorem pyStrip_eq_self {s : String}
    (h : ∀ c ∈ s.data, isPySpace c = false) : pyStrip s = s := by
  unfold pyStrip
  rw [dropWhile_eq_self_of_none isPySpace s.data h,
    dropWhile_eq_self_of_none isPySpace s.data.reverse
      (fun c hc => h c (List.mem_reverse.mp hc)),
    List.reverse_reverse]

theorem natDecimal_no_space (n : Nat) :
    ∀ c ∈ (natDecimal n).data, isPySpace c = false := by
  intro c hc
  simp only [natDecimal, List.mem_reverse] at hc
  exact not_space_of_digit
    (toDigitsRev_all_digits (n + 1) n (Nat.lt_succ_self n) c hc)

theorem natDecimal_head_digit (n : Nat) :
    ∃ c rest, (natDecimal n).data = c :: rest ∧ isDigitCh c = true := by
  have hne : toDigitsRev (n + 1) n ≠ [] := toDigitsRev_ne_nil (Nat.lt_succ_self n)
  have : (natDecimal n).data ≠ [] := by
    simp [natDecimal, hne]
  rcases hd : (natDecimal n).data with _ | ⟨c, rest⟩
  · exact absurd hd this
  · refine ⟨c, rest, rfl, ?_⟩
    have : c ∈ (natDecimal n).data := by rw [hd]; exact List.mem_cons_self c rest
    simp only [natDecimal, List.mem_reverse] at this
    exact toDigitsRev_all_digits (n + 1) n (Nat.lt_succ_self n) c this

/-- Round trip: the model of `int(...)` recovers any integer from the
decimal string Python prints for it. -/
theorem pyInt?_intDecimal (n : Int) : pyInt? (intDecimal n) = some n := by
  by_cases hn : n < 0
  · have hdata : (intDecimal n).data = '-' :: (natDecimal n.natAbs).data := by
      simp [intDecimal, if_pos hn]
    have hstrip : pyStrip (intDecimal n) = intDecimal n := by
      refine pyStrip_eq_self ?_
      intro c hc
      rw [hdata] at hc
      rcases List.mem_cons.mp hc with h1 | h1
      · subst h1; rfl
      · exact natDecimal_no_space n.natAbs c h1
    have hpd : pyDigits? (natDecimal n.natAbs).data = some n.natAbs :=
      pyDigits?_natDecimal n.natAbs
    simp only [pyInt?, hstrip, hdata, if_true]
    rw [hpd]
    simp only [Option.bind_eq_bind, Option.some_bind, Option.pure_def,
      Option.map_some', Option.some.injEq]
    omega
  · have hdata : intDecimal n = natDecimal n.toNat := by
      simp [intDecimal, if_neg hn]
    obtain ⟨c, rest, hdat, hdig⟩ := natDecimal_head_digit n.toNat
    have hstrip : pyStrip (natDecimal n.toNat) = natDecimal n.toNat :=
      pyStrip_eq_self (natDecimal_no_space n.toNat)
    have hc1 : ¬ c = '-' := by
      intro h; rw [h] at hdig; exact absurd hdig (by decide)
    have hc2 : ¬ c = '+' := by
      intro h; rw [h] at hdig; exact absurd hdig (by decide)
    simp only [pyInt?, hdata, hstrip, hdat]
    rw [if_neg hc1, if_neg hc2, ← hdat, pyDigits?_natDecimal]
    simp only [Option.bind_eq_bind, Option.some_bind, Option.pure_def,
      Option.map_some', Option.some.injEq]
    omega

/-! ## Paths and `ensure_unique_path` (src/main.py lines 130-140)

A path is a directory, a stem and a suffix; its string form is
`dir ++ "/" ++ stem ++ suffix` (how `str(out_dir / out_name)` prints,
for an output directory without a trailing separator).  The filesystem
is the list of path strings that exist (`Path.exists()` is membership). -/

structure FsPath where
  dir : String
  stem : String
  suffix : String
deriving DecidableEq

/-- Model of str(p): the full path string. -/
def FsPath.str (p : FsPath) : String := p.dir ++ "/" ++ p.stem ++ p.suffix

/-- Final component of the path, `stem + suffix` (pathlib invariant). -/
def FsPath.name (p : FsPath) : String := p.stem ++ p.suffix

/-- Candidate number `i`, `p.with_name(f"{stem}_{i}{suffix}")`: the `i`-th collision-avoidance
candidate generated by `ensure_unique_path`. -/
def candPath (p : FsPath) (i : Nat) : FsPath :=
  ⟨p.dir, p.stem ++ "_" ++ natDecimal i, p.suffix⟩

theorem natDecimal_data_injective {i j : Nat}
    (h : (natDecimal i).data = (natDecimal j).data) : i = j := by
  have h1 := pyDigits?_natDecimal i
  rw [h, pyDigits?_natDecimal j] at h1
  exact (Option.some_injective _ h1).symm

theorem candPath_str_inj (p : FsPath) {i j : Nat}
    (h : (candPath p i).str = (candPath p j).str) : i = j := by
  have hd : ((candPath p i).str).data = ((candPath p j).str).data :=
    congrArg String.data h
  simp only [candPath, FsPath.str, String.data_append, List.append_assoc] at hd
  have h1 := List.append_cancel_left hd
  have h2 := List.append_cancel_left h1
  have h3 := List.append_cancel_left h2
  have h4 := List.append_cancel_left h3
  exact natDecimal_data_injective (List.append_cancel_right h4)

/-- There is always a positive index whose candidate name is not on the
(finite) filesystem: the `while` loop of `ensure_unique_path` terminates. -/
theorem exists_free_index (p : FsPath) (fs : List String) :
    ∃ i, 0 < i ∧ (candPath p i).str ∉ fs := by
  by_contra hall
  push_neg at hall
  have hmem : ∀ k : ℕ, (candPath p (k + 1)).str ∈ fs :=
    fun k => hall (k + 1) (Nat.succ_pos k)
  have hg : ∀ k : ℕ, List.indexOf ((candPath p (k + 1)).str) fs < fs.length :=
    fun k => List.indexOf_lt_length.mpr (hmem k)
  obtain ⟨k, m, hkm, hfkm⟩ := Finite.exists_ne_map_eq_of_infinite
    (fun k : ℕ =>
      (⟨List.indexOf ((candPath p (k + 1)).str) fs, hg k⟩ : Fin fs.length))
  have hv : List.indexOf ((candPath p (k + 1)).str) fs
      = List.indexOf ((candPath p (m + 1)).str) fs := congrArg Fin.val hfkm
  have heq : (candPath p (k + 1)).str = (candPath p (m + 1)).str :=
    (List.indexOf_inj (hmem k) (hmem m)).mp hv
  have := candPath_str_inj p heq
  exact hkm (by omega)

/-- Model of `ensure_unique_path` from `src/main.py`: return `p` unless it exists;
otherwise try `stem_1`, `stem_2`, ... and return the first candidate that
does not exist. -/
def ensure_unique_path (p : FsPath) (fs : List String) : FsPath :=
  if p.str ∈ fs then candPath p (Nat.find (exists_free_index p fs)) else p

theorem ensure_unique_path_of_not_mem {p : FsPath} {fs : List String}
    (h : p.str ∉ fs) : ensure_unique_path p fs = p := by
  simp [ensure_unique_path, h]

theorem ensure_unique_path_of_mem {p : FsPath} {fs : List String}
    (h : p.str ∈ fs) :
    ensure_unique_path p fs = candPath p (Nat.find (exists_free_index p fs)) := by
  simp [ensure_unique_path, h]

theorem ensure_unique_path_spec (p : FsPath) (fs : List String) :
    0 < Nat.find (exists_free_index p fs) ∧
    (candPath p (Nat.find (exists_free_index p fs))).str ∉ fs ∧
    ∀ j, 0 < j → j < Nat.find (exists_free_index p fs) →
      (candPath p j).str ∈ fs := by
  obtain ⟨h1, h2⟩ := Nat.find_spec (exists_free_index p fs)
  refine ⟨h1, h2, ?_⟩
  intro j hj0 hjlt
  by_contra hnot
  exact Nat.find_min (exists_free_index p fs) hjlt ⟨hj0, hnot⟩

/-- Stem/suffix split of a file name as in pathlib: the suffix begins at the
rightmost dot, provided that dot is neither the first nor the last
character of the name; otherwise the suffix is empty. -/
def splitName (name : String) : String × String :=
  let cs := name.data
  if '.' ∈ cs then
    let i := cs.length - 1 - List.indexOf '.' cs.reverse
    if 0 < i ∧ i < cs.length - 1 then (⟨cs.take i⟩, ⟨cs.drop i⟩)
    else (name, "")
  else (name, "")

/-! ## Encode plans (src/main.py lines 143-182) -/

/-- The `EncodePlan` dataclass: encoder arguments, output suffix, and whether
the suffix replaces the input extension (audio extraction) or is appended
to the stem. -/
structure EncodePlan where
  args : List String
  out_suffix : String
  replace_ext : Bool
deriving DecidableEq

/-- Model of `build_plan(mode)`; the unrecognized-mode `ValueError` is `none`. -/
def build_plan (mode : String) : Option EncodePlan :=
  if mode = "quality" then
    some ⟨["-c:v", "libx264", "-crf", "18", "-preset", "slow",
           "-c:a", "copy", "-movflags", "+faststart"],
          "_hq.mp4", false⟩
  else if mode = "size" then
    some ⟨["-c:v", "libx264", "-crf", "28", "-preset", "veryslow",
           "-c:a", "aac", "-b:a", "128k", "-movflags", "+faststart"],
          "_small.mp4", false⟩
  else if mode = "audio" then
    some ⟨["-vn", "-acodec", "aac", "-b:a", "128k"], ".m4a", true⟩
  else none

/-- Model of `maybe_add_scale(args, in_path)`: the probed height `h` of the input
(`ffprobe_resolution`) is passed in as an oracle.  The Python test
`if h and h > 1080` proceeds exactly when the height is present, nonzero
and above 1080.  If a `-vf` flag is present, the scale expression is
appended to the value after it with a comma (an `IndexError` — `-vf` being
the final element — is `none`); otherwise `-vf scale=-2:1080` is appended. -/
def maybe_add_scale (args : List String) (h : Option Int) : Option (List String) :=
  match h with
  | none => some args
  | some hv =>
    if hv ≠ 0 ∧ hv > 1080 then
      if "-vf" ∈ args then
        let i := List.indexOf "-vf" args + 1
        if hlt : i < args.length then
          some (args.set i (args[i] ++ ",scale=-2:1080"))
        else none
      else some (args ++ ["-vf", "scale=-2:1080"])
    else some args

/-! ### A small heap model for Python list aliasing

`list` objects live in a heap (allocation-ordered); `list(plan.args)`
allocates a fresh cell holding a copy, and `maybe_add_scale` mutates the
cell it is handed in place (`args[i] = ...` and `args += [...]`).  This is
used to state that a run leaves the argument list of the plan untouched —
the worker mutates only the per-file copy. -/

/-- Heap of list objects, addressed by allocation index. -/
def heapGet (h : List (List String)) (r : Nat) : List String := h.getD r []

/-- In-place update of the list object at `r`. -/
def heapSet (h : List (List String)) (r : Nat) (v : List String) :
    List (List String) := h.set r v

/-- Copy as by `list(...)`: allocate a fresh cell holding the value at `r`. -/
def listCopyAlloc (h : List (List String)) (r : Nat) :
    List (List String) × Nat := (h ++ [heapGet h r], h.length)

/-- The `maybe_add_scale` step acting on the heap: same branches as the pure
function, but the updated list is written back to the cell `r` that was
passed in (in-place mutation). -/
def maybe_add_scale_heap (h : List (List String)) (r : Nat)
    (height : Option Int) : Option (List (List String)) :=
  let args := heapGet h r
  match height with
  | none => some h
  | some hv =>
    if hv ≠ 0 ∧ hv > 1080 then
      if "-vf" ∈ args then
        let i := List.indexOf "-vf" args + 1
        if hlt : i < args.length then
          some (heapSet h r (args.set i (args[i] ++ ",scale=-2:1080")))
        else none
      else some (heapSet h r (args ++ ["-vf", "scale=-2:1080"]))
    else some h

/-- Lines 325-327 of the worker for one file: `args = list(plan.args)`
(fresh copy), then `maybe_add_scale` on the copy when the plan is a video
plan.  Returns the heap and the reference holding the per-file argument
list. -/
def fileArgsStep (h : List (List String)) (planRef : Nat)
    (replace_ext : Bool) (height : Option Int) :
    Option (List (List String) × Nat) :=
  let c := listCopyAlloc h planRef
  if replace_ext then some c
  else (maybe_add_scale_heap c.1 c.2 height).map (fun h2 => (h2, c.2))

/-- The argument-handling effect of a whole run: one `fileArgsStep` per
input file (each file contributes its probed height). -/
def runArgsHeap (h : List (List String)) (planRef : Nat)
    (replace_ext : Bool) : List (Option Int) → Option (List (List String))
  | [] => some h
  | ht :: rest =>
    match fileArgsStep h planRef replace_ext ht with
    | none => none
    | some (h2, _) => runArgsHeap h2 planRef replace_ext rest

/-! ## Progress parser (src/main.py lines 372-384)

The worker strips each line; blank lines are skipped (`continue`); a line
starting with `out_time_ms=` has the text after the first `=` parsed as an
integer, divided by 1 000 000.0 and applied only if it does not decrease
the processed position (malformed values are silently dropped); a line
starting with `speed=` stores the stripped text after the first `=`.
Since the keys contain no `=`, `s.split("=", 1)[1]` is `s` minus the
key-plus-`=` prefix, i.e. `strDrop s 12` / `strDrop s 6`. -/

/-- Parser state transition on one already-stripped nonempty line. -/
def consumeLine (s : String) (processed : ℚ) (speed : Option String) :
    ℚ × Option String :=
  if strStartsWith s "out_time_ms=" then
    match pyInt? (strDrop s 12) with
    | some n =>
      if (n : ℚ) / 1000000 ≥ processed then ((n : ℚ) / 1000000, speed)
      else (processed, speed)
    | none => (processed, speed)
  else if strStartsWith s "speed=" then
    (processed, some (pyStrip (strDrop s 6)))
  else (processed, speed)

/-- One loop iteration of the parser part of the worker body on a raw
line: strip, skip if blank, otherwise `consumeLine`. -/
def parseStep (st : ℚ × Option String) (line : String) : ℚ × Option String :=
  let s := pyStrip line
  if s = "" then st else consumeLine s st.1 st.2

/-- The state trace of the parser over a sequence of raw input lines
(initial state included). -/
def parserTrace (st : ℚ × Option String) : List String → List (ℚ × Option String)
  | [] => [st]
  | l :: ls => st :: parserTrace (parseStep st l) ls

theorem consumeLine_mono (s : String) (p : ℚ) (sp : Option String) :
    p ≤ (consumeLine s p sp).1 := by
  unfold consumeLine
  split
  · split
    · next n _ =>
      split
      · next hge => exact hge
      · exact le_refl p
    · exact le_refl p
  · split <;> exact le_refl p

theorem parseStep_mono (st : ℚ × Option String) (line : String) :
    st.1 ≤ (parseStep st line).1 := by
  unfold parseStep
  by_cases hb : pyStrip line = ""
  · simp only [hb, if_pos]
    exact le_refl _
  · simp only [if_neg hb]
    exact consumeLine_mono _ _ _

theorem parserTrace_chain (lines : List String) (st : ℚ × Option String) :
    List.Chain' (fun a b => a.1 ≤ b.1) (parserTrace st lines) := by
  induction lines generalizing st with
  | nil => simp [parserTrace]
  | cons l ls ih =>
    rw [parserTrace]
    rcases ls with _ | ⟨l2, ls2⟩
    · simp only [parserTrace]
      exact List.chain'_pair.mpr (parseStep_mono st l)
    · rw [parserTrace]
      refine List.Chain'.cons (parseStep_mono st l) ?_
      have := ih (parseStep st l)
      rw [parserTrace] at this
      exact this

/-! ## The orchestrator `worker_thread` (src/main.py lines 296-408)

Events are the dict-shaped messages put on the queue, as a tagged union.
Per input file the externally determined facts (probe results, launch
outcome, the progress lines the encoder writes, a possible mid-stream I/O
exception, and the exit code) are carried by a `FileJob`.  The
cancellation flag and the wall clock are oracles indexed by access count
(see the header).  A `none` result models the worker thread dying from an
uncaught exception (no further events, no terminal event). -/

/-- The queue messages of `worker_thread`. -/
inductive Event
  | start_file (name : String) (total : Option ℚ)
  | prog_file (processed : ℚ) (total : Option ℚ) (speed : Option String)
  | end_file (ok : Bool) (name : String) (out : String)
  | overall (done total : Nat)
  | error (msg : String)
  | cancelled
  | done_all
deriving DecidableEq

/-- Outcome of `subprocess.Popen` for one file. -/
inductive LaunchOutcome
  | ok
  | fileNotFound
  | spawnError (msg : String)
deriving DecidableEq

/-- One input file together with the behaviour of the external world for
it: probed duration and height, launch outcome, the stdout progress lines,
an optional I/O exception (raised after reading that many lines), and the
process exit code. -/
structure FileJob where
  stem : String
  suffix : String
  duration : Option ℚ
  height : Option Int
  launch : LaunchOutcome
  lines : List String
  exn : Option (Nat × String)
  exitCode : Int
deriving DecidableEq

/-- Model of `in_path.name` (pathlib: name = stem + suffix). -/
def FileJob.name (f : FileJob) : String := f.stem ++ f.suffix

/-- Whether a suffix is legal for `Path.with_suffix`: empty, or starting
with a dot and not just a dot (otherwise `ValueError`). -/
def validSuffix (sfx : String) : Bool :=
  sfx = "" || (strStartsWith sfx "." && !(sfx = "."))

/-- Output file name (lines 316-319): `in_path.with_suffix(out_suffix).name`
when the plan replaces the extension (audio), else `in_path.stem +
out_suffix`.  Both compute `stem ++ out_suffix`; `with_suffix` can raise
`ValueError` on a malformed suffix (→ `none`). -/
def outName (plan : EncodePlan) (f : FileJob) : Option String :=
  if plan.replace_ext then
    if validSuffix plan.out_suffix then some (f.stem ++ plan.out_suffix)
    else none
  else some (f.stem ++ plan.out_suffix)

/-- Lines 325-327: the argument list actually passed to the encoder — a
copy of the plan arguments, with the resolution cap applied for video
plans. -/
def argsFor (plan : EncodePlan) (f : FileJob) : Option (List String) :=
  if plan.replace_ext then some plan.args
  else maybe_add_scale plan.args f.height

/-- Error message for a missing encoder binary (line 347). -/
def msgFfmpegMissing : String := "无法找到 ffmpeg，请确认已安装并加入 PATH。"

/-- Error message for any other spawn failure (line 349). -/
def msgSpawn (e : String) : String := "无法启动 ffmpeg：" ++ e

/-- Error message for a mid-stream exception (line 405). -/
def msgProcExn (e : String) : String := "处理异常：" ++ e

/-- Result of the per-file read loop: events emitted, whether cancellation
was observed (the worker returns), and the advanced flag-check / clock
counters. -/
structure LinesResult where
  events : List Event
  cancelled : Bool
  cc : Nat
  tc : Nat

/-- The `for line in proc.stdout` loop (lines 357-389): before each line
the stop flag is checked (observing it emits `cancelled` and returns);
then the line is stripped, blank lines are skipped, the parser state is
updated, and a `prog_file` event is emitted if at least 0.2s of wall time
passed since the last emission. -/
def runLines (stop : Nat → Bool) (clock : Nat → ℚ) (duration : Option ℚ) :
    List String → Nat → Nat → ℚ → ℚ → Option String → LinesResult
  | [], cc, tc, _, _, _ => ⟨[], false, cc, tc⟩
  | line :: rest, cc, tc, lastEmit, processed, speed =>
    if stop cc then ⟨[Event.cancelled], true, cc + 1, tc⟩
    else
      let s := pyStrip line
      if s = "" then
        runLines stop clock duration rest (cc + 1) tc lastEmit processed speed
      else
        let st := consumeLine s processed speed
        let now := clock tc
        if now - lastEmit ≥ (0.2 : ℚ) then
          let r := runLines stop clock duration rest (cc + 1) (tc + 1) now st.1 st.2
          ⟨Event.prog_file st.1 duration st.2 :: r.events, r.cancelled, r.cc, r.tc⟩
        else
          runLines stop clock duration rest (cc + 1) (tc + 1) lastEmit st.1 st.2

/-- Result of processing one file: the events it put on the queue, which
of the three abnormal ways out it took (cancellation → the worker returns;
crash → the thread dies; broke → `break` to the final `done_all`), and the
advanced counters and success count. -/
structure FileResult where
  events : List Event
  cancelled : Bool
  crashed : Bool
  broke : Bool
  cc : Nat
  tc : Nat
  done : Nat

/-- The loop body of `worker_thread` for one file (lines 315-406), after
the top-of-loop stop check: compute the collision-free output path, emit
`start_file`, build the argument list, launch, read the progress stream,
then on normal process exit emit `end_file` (ok iff exit code 0) and
`overall` (done incremented only on success). -/
def processFile (fs : List String) (stop : Nat → Bool) (clock : Nat → ℚ)
    (plan : EncodePlan) (outDir : String) (total : Nat)
    (f : FileJob) (cc tc done : Nat) : FileResult :=
  match outName plan f with
  | none => ⟨[], false, true, false, cc, tc, done⟩
  | some oname =>
    let op := ensure_unique_path
      ⟨outDir, (splitName oname).1, (splitName oname).2⟩ fs
    let ev0 := Event.start_file f.name f.duration
    match argsFor plan f with
    | none => ⟨[ev0], false, true, false, cc, tc, done⟩
    | some _args =>
      match f.launch with
      | .fileNotFound =>
        ⟨[ev0, .error msgFfmpegMissing], false, false, true, cc, tc, done⟩
      | .spawnError e =>
        ⟨[ev0, .error (msgSpawn e)], false, false, true, cc, tc, done⟩
      | .ok =>
        let lastEmit := clock tc
        let eff := match f.exn with
          | none => f.lines
          | some (k, _) => f.lines.take k
        let r := runLines stop clock f.duration eff cc (tc + 1) lastEmit 0 none
        if r.cancelled then
          ⟨ev0 :: r.events, true, false, false, r.cc, r.tc, done⟩
        else
          match f.exn with
          | some (_, e) =>
            ⟨ev0 :: r.events ++ [.error (msgProcExn e)],
             false, false, true, r.cc, r.tc, done⟩
          | none =>
            let done2 := if f.exitCode == 0 then done + 1 else done
            ⟨ev0 :: r.events ++
               [.end_file (f.exitCode == 0) f.name op.str,
                .overall done2 total],
             false, false, false, r.cc, r.tc, done2⟩

/-- The `for idx, in_path in enumerate(files, 1)` loop plus the final
`q.put(done_all)` (lines 311-408): before each file the stop flag is
checked (`break` when set); cancellation observed inside a file returns
without `done_all`; a launch failure or mid-stream exception breaks to the
single final `done_all`; a crash kills the thread (`none`). -/
def workerGo (fs : List String) (stop : Nat → Bool) (clock : Nat → ℚ)
    (plan : EncodePlan) (outDir : String) (total : Nat) :
    List FileJob → Nat → Nat → Nat → Option (List Event)
  | [], _, _, _ => some [Event.done_all]
  | f :: rest, cc, tc, done =>
    if stop cc then some [Event.done_all]
    else
      let r := processFile fs stop clock plan outDir total f (cc + 1) tc done
      if r.crashed then none
      else if r.cancelled then some r.events
      else if r.broke then some (r.events ++ [Event.done_all])
      else (workerGo fs stop clock plan outDir total rest r.cc r.tc r.done).map
        (fun tail => r.events ++ tail)

/-- Model of `worker_thread(files, plan, out_dir, q, stop_flag)`: the full event
stream of one run (`none` if the thread dies from an uncaught
exception). -/
def worker_thread (files : List FileJob) (plan : EncodePlan) (outDir : String)
    (fs : List String) (stop : Nat → Bool) (clock : Nat → ℚ) :
    Option (List Event) :=
  workerGo fs stop clock plan outDir files.length files 0 0 0

/-! ## Structure of the event stream -/

/-- The terminal events of the stream: `cancelled` and `done_all`. -/
def Event.isTerminal : Event → Bool
  | .cancelled => true
  | .done_all => true
  | _ => false

/-- The read loop emits only `prog_file` events, followed by a single
`cancelled` exactly when cancellation was observed. -/
theorem runLines_struct (stop : Nat → Bool) (clock : Nat → ℚ)
    (duration : Option ℚ) :
    ∀ (lines : List String) (cc tc : Nat) (le pr : ℚ) (sp : Option String),
      ∃ ps, (runLines stop clock duration lines cc tc le pr sp).events
          = ps ++ (if (runLines stop clock duration lines cc tc le pr sp).cancelled
                   then [Event.cancelled] else [])
        ∧ ∀ e ∈ ps, ∃ p d s, e = Event.prog_file p d s := by
  intro lines
  induction lines with
  | nil =>
    intro cc tc le pr sp
    exact ⟨[], by simp [runLines], by simp⟩
  | cons line rest ih =>
    intro cc tc le pr sp
    by_cases hstop : stop cc
    · refine ⟨[], ?_, by simp⟩
      simp [runLines, hstop]
    · by_cases hblank : pyStrip line = ""
      · obtain ⟨ps, hps, hall⟩ := ih (cc + 1) tc le pr sp
        refine ⟨ps, ?_, hall⟩
        simp only [runLines, hstop, Bool.false_eq_true, if_false, hblank,
          if_pos]
        exact hps
      · by_cases hth : clock tc - le ≥ (0.2 : ℚ)
        · obtain ⟨ps, hps, hall⟩ :=
            ih (cc + 1) (tc + 1) (clock tc)
              (consumeLine (pyStrip line) pr sp).1
              (consumeLine (pyStrip line) pr sp).2
          refine ⟨Event.prog_file (consumeLine (pyStrip line) pr sp).1 duration
              (consumeLine (pyStrip line) pr sp).2 :: ps, ?_, ?_⟩
          · simp only [runLines, hstop, Bool.false_eq_true, if_false,
              hblank, if_neg, hth, if_pos, List.cons_append]
            exact congrArg _ hps
          · intro e he
            rcases List.mem_cons.mp he with h1 | h1
            · exact ⟨_, _, _, h1⟩
            · exact hall e h1
        · obtain ⟨ps, hps, hall⟩ :=
            ih (cc + 1) (tc + 1) le
              (consumeLine (pyStrip line) pr sp).1
              (consumeLine (pyStrip line) pr sp).2
          refine ⟨ps, ?_, hall⟩
          simp only [runLines, hstop, Bool.false_eq_true, if_false, hblank,
            if_neg, hth]
          exact hps

theorem runLines_mem (stop : Nat → Bool) (clock : Nat → ℚ)
    (duration : Option ℚ) (lines : List String) (cc tc : Nat) (le pr : ℚ)
    (sp : Option String) :
    ∀ e ∈ (runLines stop clock duration lines cc tc le pr sp).events,
      (∃ p d s, e = Event.prog_file p d s) ∨ e = Event.cancelled := by
  obtain ⟨ps, hps, hall⟩ := runLines_struct stop clock duration lines cc tc le pr sp
  intro e he
  rw [hps] at he
  rcases List.mem_append.mp he with h1 | h1
  · exact Or.inl (hall e h1)
  · split at h1
    · simp only [List.mem_singleton] at h1
      exact Or.inr h1
    · simp at h1

theorem runLines_countP (stop : Nat → Bool) (clock : Nat → ℚ)
    (duration : Option ℚ) (lines : List String) (cc tc : Nat) (le pr : ℚ)
    (sp : Option String) :
    (runLines stop clock duration lines cc tc le pr sp).events.countP
        Event.isTerminal
      = if (runLines stop clock duration lines cc tc le pr sp).cancelled
        then 1 else 0 := by
  obtain ⟨ps, hps, hall⟩ := runLines_struct stop clock duration lines cc tc le pr sp
  rw [hps, List.countP_append]
  have h0 : ps.countP Event.isTerminal = 0 := by
    refine List.countP_eq_zero.mpr ?_
    intro e he
    obtain ⟨p, d, s, rfl⟩ := hall e he
    simp [Event.isTerminal]
  rw [h0]
  split <;> simp [Event.isTerminal, List.countP_cons]

theorem runLines_getLast (stop : Nat → Bool) (clock : Nat → ℚ)
    (duration : Option ℚ) (lines : List String) (cc tc : Nat) (le pr : ℚ)
    (sp : Option String)
    (h : (runLines stop clock duration lines cc tc le pr sp).cancelled = true) :
    (runLines stop clock duration lines cc tc le pr sp).events.getLast?
      = some Event.cancelled := by
  obtain ⟨ps, hps, _⟩ := runLines_struct stop clock duration lines cc tc le pr sp
  rw [hps, h]
  simp [List.getLast?_append]

theorem processFile_done_le (fs : List String) (stop : Nat → Bool)
    (clock : Nat → ℚ) (plan : EncodePlan) (outDir : String) (total : Nat)
    (f : FileJob) (cc tc done : Nat) :
    done ≤ (processFile fs stop clock plan outDir total f cc tc done).done ∧
    (processFile fs stop clock plan outDir total f cc tc done).done ≤ done + 1 := by
  rcases hout : outName plan f with _ | oname
  · simp [processFile, hout]
  · rcases hargs : argsFor plan f with _ | as
    · simp [processFile, hout, hargs]
    · rcases hl : f.launch with _ | _ | e
      case ok =>
        rcases hexn : f.exn with _ | ke
        · simp only [processFile, hout, hargs, hl, hexn]
          split
          · simp
          · simp only
            split <;> simp
        · rcases ke with ⟨k, e⟩
          simp only [processFile, hout, hargs, hl, hexn]
          split <;> simp
      all_goals simp [processFile, hout, hargs, hl]

theorem processFile_countP (fs : List String) (stop : Nat → Bool)
    (clock : Nat → ℚ) (plan : EncodePlan) (outDir : String) (total : Nat)
    (f : FileJob) (cc tc done : Nat)
    (h : (processFile fs stop clock plan outDir total f cc tc done).crashed
      = false) :
    (processFile fs stop clock plan outDir total f cc tc done).events.countP
        Event.isTerminal
      = if (processFile fs stop clock plan outDir total f cc tc done).cancelled
        then 1 else 0 := by
  rcases hout : outName plan f with _ | oname
  · simp [processFile, hout] at h
  · rcases hargs : argsFor plan f with _ | as
    · simp [processFile, hout, hargs] at h
    · rcases hl : f.launch with _ | _ | e
      case ok =>
        rcases hexn : f.exn with _ | ke
        · by_cases hc :
            (runLines stop clock f.duration f.lines cc (tc + 1) (clock tc)
              0 none).cancelled = true
          · simp only [processFile, hout, hargs, hl, hexn, hc, if_true]
            rw [List.countP_cons, runLines_countP]
            simp [hc, Event.isTerminal]
          · simp only [processFile, hout, hargs, hl, hexn, hc, if_false]
            simp [hc, List.countP_cons, List.countP_append,
              runLines_countP, Event.isTerminal]
        · rcases ke with ⟨k, e⟩
          by_cases hc :
            (runLines stop clock f.duration (f.lines.take k) cc (tc + 1)
              (clock tc) 0 none).cancelled = true
          · simp only [processFile, hout, hargs, hl, hexn, hc, if_true]
            rw [List.countP_cons, runLines_countP]
            simp [hc, Event.isTerminal]
          · simp only [processFile, hout, hargs, hl, hexn, hc, if_false]
            simp [hc, List.countP_cons, List.countP_append,
              runLines_countP, Event.isTerminal]
      all_goals
        simp [processFile, hout, hargs, hl, List.countP_cons, Event.isTerminal]

theorem processFile_cancel_getLast (fs : List String) (stop : Nat → Bool)
    (clock : Nat → ℚ) (plan : EncodePlan) (outDir : String) (total : Nat)
    (f : FileJob) (cc tc done : Nat)
    (h : (processFile fs stop clock plan outDir total f cc tc done).cancelled
      = true) :
    (processFile fs stop clock plan outDir total f cc tc done).events.getLast?
      = some Event.cancelled := by
  rcases hout : outName plan f with _ | oname
  · simp [processFile, hout] at h
  · rcases hargs : argsFor plan f with _ | as
    · simp [processFile, hout, hargs] at h
    · rcases hl : f.launch with _ | _ | e
      case ok =>
        rcases hexn : f.exn with _ | ke
        · by_cases hc :
            (runLines stop clock f.duration f.lines cc (tc + 1) (clock tc)
              0 none).cancelled = true
          · simp only [processFile, hout, hargs, hl, hexn, hc, if_true]
            obtain ⟨ps, hps, _⟩ := runLines_struct stop clock f.duration
              f.lines cc (tc + 1) (clock tc) 0 none
            rw [hps, hc]
            simp only [if_true, ← List.cons_append, List.getLast?_concat]
          · simp [processFile, hout, hargs, hl, hexn, hc] at h
        · rcases ke with ⟨k, e⟩
          by_cases hc :
            (runLines stop clock f.duration (f.lines.take k) cc (tc + 1)
              (clock tc) 0 none).cancelled = true
          · simp only [processFile, hout, hargs, hl, hexn, hc, if_true]
            obtain ⟨ps, hps, _⟩ := runLines_struct stop clock f.duration
              (f.lines.take k) cc (tc + 1) (clock tc) 0 none
            rw [hps, hc]
            simp only [if_true, ← List.cons_append, List.getLast?_concat]
          · simp [processFile, hout, hargs, hl, hexn, hc] at h
      all_goals simp [processFile, hout, hargs, hl] at h

theorem processFile_overall_mem (fs : List String) (stop : Nat → Bool)
    (clock : Nat → ℚ) (plan : EncodePlan) (outDir : String) (total : Nat)
    (f : FileJob) (cc tc done : Nat) :
    ∀ d t, Event.overall d t
        ∈ (processFile fs stop clock plan outDir total f cc tc done).events →
      d = (processFile fs stop clock plan outDir total f cc tc done).done
        ∧ t = total := by
  intro d t hmem
  rcases hout : outName plan f with _ | oname
  · simp [processFile, hout] at hmem
  · rcases hargs : argsFor plan f with _ | as
    · simp [processFile, hout, hargs] at hmem
    · rcases hl : f.launch with _ | _ | e
      case ok =>
        rcases hexn : f.exn with _ | ke
        · by_cases hc :
            (runLines stop clock f.duration f.lines cc (tc + 1) (clock tc)
              0 none).cancelled = true
          · simp only [processFile, hout, hargs, hl, hexn, hc, if_true] at hmem ⊢
            rcases List.mem_cons.mp hmem with h1 | h1
            · exact absurd h1 (by simp)
            · rcases runLines_mem stop clock f.duration f.lines cc (tc + 1)
                (clock tc) 0 none _ h1 with ⟨p, dd, s, hh⟩ | hh <;> simp at hh
          · simp only [processFile, hout, hargs, hl, hexn, hc,
              if_false] at hmem ⊢
            simp only [Bool.not_eq_true] at hc
            simp only [hc, Bool.false_eq_true, if_false] at hmem ⊢
            rcases List.mem_cons.mp hmem with h1 | h1
            · exact absurd h1 (by simp)
            · rcases List.mem_append.mp h1 with h2 | h2
              · rcases runLines_mem stop clock f.duration f.lines cc (tc + 1)
                  (clock tc) 0 none _ h2 with ⟨p, dd, s, hh⟩ | hh <;> simp at hh
              · simp only [List.mem_cons, List.mem_singleton] at h2
                rcases h2 with h3 | h3
                · exact absurd h3 (by simp)
                · rcases h3 with h3 | h3
                  · injection h3 with hd ht
                    exact ⟨hd, ht⟩
                  · simp at h3
        · rcases ke with ⟨k, e⟩
          by_cases hc :
            (runLines stop clock f.duration (f.lines.take k) cc (tc + 1)
              (clock tc) 0 none).cancelled = true
          · simp only [processFile, hout, hargs, hl, hexn, hc, if_true] at hmem ⊢
            rcases List.mem_cons.mp hmem with h1 | h1
            · exact absurd h1 (by simp)
            · rcases runLines_mem stop clock f.duration (f.lines.take k) cc
                (tc + 1) (clock tc) 0 none _ h1 with ⟨p, dd, s, hh⟩ | hh <;>
                simp at hh
          · simp only [processFile, hout, hargs, hl, hexn, hc,
              if_false] at hmem ⊢
            simp only [Bool.not_eq_true] at hc
            simp only [hc, Bool.false_eq_true, if_false] at hmem ⊢
            rcases List.mem_cons.mp hmem with h1 | h1
            · exact absurd h1 (by simp)
            · rcases List.mem_append.mp h1 with h2 | h2
              · rcases runLines_mem stop clock f.duration (f.lines.take k) cc
                  (tc + 1) (clock tc) 0 none _ h2 with ⟨p, dd, s, hh⟩ | hh <;>
                  simp at hh
              · simp at h2
      all_goals simp [processFile, hout, hargs, hl] at hmem

theorem workerGo_terminal (fs : List String) (stop : Nat → Bool)
    (clock : Nat → ℚ) (plan : EncodePlan) (outDir : String) (total : Nat) :
    ∀ (files : List FileJob) (cc tc done : Nat) (E : List Event),
      workerGo fs stop clock plan outDir total files cc tc done = some E →
      E.countP Event.isTerminal = 1 ∧
      ∃ e, E.getLast? = some e ∧ Event.isTerminal e = true := by
  intro files
  induction files with
  | nil =>
    intro cc tc done E hE
    simp only [workerGo, Option.some.injEq] at hE
    subst hE
    exact ⟨by simp [List.countP_cons, Event.isTerminal], Event.done_all,
      by simp, rfl⟩
  | cons f rest ih =>
    intro cc tc done E hE
    rw [workerGo] at hE
    by_cases hstop : stop cc = true
    · simp only [hstop, if_true, Option.some.injEq] at hE
      subst hE
      exact ⟨by simp [List.countP_cons, Event.isTerminal], Event.done_all,
        by simp, rfl⟩
    · simp only [hstop, Bool.false_eq_true, if_false] at hE
      by_cases hcr :
        (processFile fs stop clock plan outDir total f (cc + 1) tc done).crashed
          = true
      · simp [hcr] at hE
      · by_cases hca :
          (processFile fs stop clock plan outDir total f (cc + 1) tc
            done).cancelled = true
        · simp only [hcr, Bool.false_eq_true, if_false, hca, if_true,
            Option.some.injEq] at hE
          subst hE
          refine ⟨?_, Event.cancelled,
            processFile_cancel_getLast fs stop clock plan outDir total f
              (cc + 1) tc done hca, rfl⟩
          rw [processFile_countP fs stop clock plan outDir total f (cc + 1)
            tc done (by simpa using hcr), hca, if_pos rfl]
        · by_cases hbr :
            (processFile fs stop clock plan outDir total f (cc + 1) tc
              done).broke = true
          · simp only [hcr, Bool.false_eq_true, if_false, hca, hbr, if_true,
              Option.some.injEq] at hE
            subst hE
            refine ⟨?_, Event.done_all, List.getLast?_concat _, rfl⟩
            rw [List.countP_append,
              processFile_countP fs stop clock plan outDir total f (cc + 1)
                tc done (by simpa using hcr)]
            simp [hca, List.countP_cons, Event.isTerminal]
          · simp only [hcr, Bool.false_eq_true, if_false, hca, hbr,
              Option.map_eq_some'] at hE
            obtain ⟨tail, htail, rfl⟩ := hE
            obtain ⟨hcnt, e, hlast, hterm⟩ := ih _ _ _ _ htail
            refine ⟨?_, e, ?_, hterm⟩
            · rw [List.countP_append,
                processFile_countP fs stop clock plan outDir total f (cc + 1)
                  tc done (by simpa using hcr)]
              simp [hca, hcnt]
            · rw [List.getLast?_append, hlast]
              rfl

theorem workerGo_overall_le (fs : List String) (stop : Nat → Bool)
    (clock : Nat → ℚ) (plan : EncodePlan) (outDir : String) (total : Nat) :
    ∀ (files : List FileJob) (cc tc done : Nat) (E : List Event),
      done + files.length ≤ total →
      workerGo fs stop clock plan outDir total files cc tc done = some E →
      ∀ d t, Event.overall d t ∈ E → d ≤ t ∧ t = total := by
  intro files
  induction files with
  | nil =>
    intro cc tc done E _ hE d t hmem
    simp only [workerGo, Option.some.injEq] at hE
    subst hE
    simp at hmem
  | cons f rest ih =>
    intro cc tc done E hlen hE d t hmem
    have hmemP : ∀ d t, Event.overall d t
        ∈ (processFile fs stop clock plan outDir total f (cc + 1) tc
            done).events → d ≤ t ∧ t = total := by
      intro d t hm
      obtain ⟨hd, ht⟩ := processFile_overall_mem fs stop clock plan outDir
        total f (cc + 1) tc done d t hm
      obtain ⟨_, hle⟩ := processFile_done_le fs stop clock plan outDir total
        f (cc + 1) tc done
      refine ⟨?_, ht⟩
      rw [hd, ht]
      simp only [List.length_cons] at hlen
      omega
    rw [workerGo] at hE
    by_cases hstop : stop cc = true
    · simp only [hstop, if_true, Option.some.injEq] at hE
      subst hE
      simp at hmem
    · simp only [hstop, Bool.false_eq_true, if_false] at hE
      by_cases hcr :
        (processFile fs stop clock plan outDir total f (cc + 1) tc
          done).crashed = true
      · simp [hcr] at hE
      · by_cases hca :
          (processFile fs stop clock plan outDir total f (cc + 1) tc
            done).cancelled = true
        · simp only [hcr, Bool.false_eq_true, if_false, hca, if_true,
            Option.some.injEq] at hE
          subst hE
          exact hmemP d t hmem
        · by_cases hbr :
            (processFile fs stop clock plan outDir total f (cc + 1) tc
              done).broke = true
          · simp only [hcr, Bool.false_eq_true, if_false, hca, hbr, if_true,
              Option.some.injEq] at hE
            subst hE
            rcases List.mem_append.mp hmem with h1 | h1
            · exact hmemP d t h1
            · simp at h1
          · simp only [hcr, Bool.false_eq_true, if_false, hca, hbr,
              Option.map_eq_some'] at hE
            obtain ⟨tail, htail, rfl⟩ := hE
            rcases List.mem_append.mp hmem with h1 | h1
            · exact hmemP d t h1
            · refine ih _ _ _ _ ?_ htail d t h1
              obtain ⟨_, hle⟩ := processFile_done_le fs stop clock plan
                outDir total f (cc + 1) tc done
              simp only [List.length_cons] at hlen
              omega

theorem workerGo_stop (fs : List String) (stop : Nat → Bool)
    (clock : Nat → ℚ) (plan : EncodePlan) (outDir : String) (total : Nat)
    (files : List FileJob) (cc tc done : Nat) (hstop : stop cc = true) :
    workerGo fs stop clock plan outDir total files cc tc done
      = some [Event.done_all] := by
  cases files <;> simp [workerGo, hstop]

theorem runLines_stop (stop : Nat → Bool) (clock : Nat → ℚ)
    (duration : Option ℚ) (line : String) (rest : List String)
    (cc tc : Nat) (le pr : ℚ) (sp : Option String) (hstop : stop cc = true) :
    runLines stop clock duration (line :: rest) cc tc le pr sp
      = ⟨[Event.cancelled], true, cc + 1, tc⟩ := by
  simp [runLines, hstop]

theorem processFile_notFound_eq (fs : List String) (stop : Nat → Bool)
    (clock : Nat → ℚ) (plan : EncodePlan) (outDir : String) (total : Nat)
    (f : FileJob) (cc tc done : Nat) (oname : String) (as : List String)
    (hout : outName plan f = some oname) (hargs : argsFor plan f = some as)
    (hl : f.launch = LaunchOutcome.fileNotFound) :
    processFile fs stop clock plan outDir total f cc tc done
      = ⟨[Event.start_file f.name f.duration, Event.error msgFfmpegMissing],
         false, false, true, cc, tc, done⟩ := by
  simp [processFile, hout, hargs, hl]

theorem processFile_spawn_eq (fs : List String) (stop : Nat → Bool)
    (clock : Nat → ℚ) (plan : EncodePlan) (outDir : String) (total : Nat)
    (f : FileJob) (cc tc done : Nat) (oname : String) (as : List String)
    (e : String)
    (hout : outName plan f = some oname) (hargs : argsFor plan f = some as)
    (hl : f.launch = LaunchOutcome.spawnError e) :
    processFile fs stop clock plan outDir total f cc tc done
      = ⟨[Event.start_file f.name f.duration, Event.error (msgSpawn e)],
         false, false, true, cc, tc, done⟩ := by
  simp [processFile, hout, hargs, hl]

theorem processFile_normal_eq (fs : List String) (stop : Nat → Bool)
    (clock : Nat → ℚ) (plan : EncodePlan) (outDir : String) (total : Nat)
    (f : FileJob) (cc tc done : Nat) (oname : String) (as : List String)
    (hout : outName plan f = some oname) (hargs : argsFor plan f = some as)
    (hl : f.launch = LaunchOutcome.ok) (hexn : f.exn = none)
    (hc : (runLines stop clock f.duration f.lines cc (tc + 1) (clock tc)
        0 none).cancelled = false) :
    processFile fs stop clock plan outDir total f cc tc done
      = ⟨Event.start_file f.name f.duration ::
           (runLines stop clock f.duration f.lines cc (tc + 1) (clock tc)
             0 none).events ++
           [Event.end_file (f.exitCode == 0) f.name
              (ensure_unique_path
                ⟨outDir, (splitName oname).1, (splitName oname).2⟩ fs).str,
            Event.overall (if f.exitCode == 0 then done + 1 else done) total],
         false, false, false,
         (runLines stop clock f.duration f.lines cc (tc + 1) (clock tc)
           0 none).cc,
         (runLines stop clock f.duration f.lines cc (tc + 1) (clock tc)
           0 none).tc,
         if f.exitCode == 0 then done + 1 else done⟩ := by
  simp [processFile, hout, hargs, hl, hexn, hc]

theorem workerGo_cons_continue (fs : List String) (stop : Nat → Bool)
    (clock : Nat → ℚ) (plan : EncodePlan) (outDir : String) (total : Nat)
    (f : FileJob) (rest : List FileJob) (cc tc done : Nat)
    (hstop : stop cc = false)
    (hcr : (processFile fs stop clock plan outDir total f (cc + 1) tc
        done).crashed = false)
    (hca : (processFile fs stop clock plan outDir total f (cc + 1) tc
        done).cancelled = false)
    (hbr : (processFile fs stop clock plan outDir total f (cc + 1) tc
        done).broke = false) :
    workerGo fs stop clock plan outDir total (f :: rest) cc tc done
      = (workerGo fs stop clock plan outDir total rest
          (processFile fs stop clock plan outDir total f (cc + 1) tc done).cc
          (processFile fs stop clock plan outDir total f (cc + 1) tc done).tc
          (processFile fs stop clock plan outDir total f (cc + 1) tc
            done).done).map
          (fun tail =>
            (processFile fs stop clock plan outDir total f (cc + 1) tc
              done).events ++ tail) := by
  rw [workerGo]
  simp [hstop, hcr, hca, hbr]

theorem workerGo_cons_broke (fs : List String) (stop : Nat → Bool)
    (clock : Nat → ℚ) (plan : EncodePlan) (outDir : String) (total : Nat)
    (f : FileJob) (rest : List FileJob) (cc tc done : Nat)
    (hstop : stop cc = false)
    (hcr : (processFile fs stop clock plan outDir total f (cc + 1) tc
        done).crashed = false)
    (hca : (processFile fs stop clock plan outDir total f (cc + 1) tc
        done).cancelled = false)
    (hbr : (processFile fs stop clock plan outDir total f (cc + 1) tc
        done).broke = true) :
    workerGo fs stop clock plan outDir total (f :: rest) cc tc done
      = some ((processFile fs stop clock plan outDir total f (cc + 1) tc
          done).events ++ [Event.done_all]) := by
  rw [workerGo]
  simp [hstop, hcr, hca, hbr]

theorem workerGo_cons_cancel (fs : List String) (stop : Nat → Bool)
    (clock : Nat → ℚ) (plan : EncodePlan) (outDir : String) (total : Nat)
    (f : FileJob) (rest : List FileJob) (cc tc done : Nat)
    (hstop : stop cc = false)
    (hcr : (processFile fs stop clock plan outDir total f (cc + 1) tc
        done).crashed = false)
    (hca : (processFile fs stop clock plan outDir total f (cc + 1) tc
        done).cancelled = true) :
    workerGo fs stop clock plan outDir total (f :: rest) cc tc done
      = some (processFile fs stop clock plan outDir total f (cc + 1) tc
          done).events := by
  rw [workerGo]
  simp [hstop, hcr, hca]

/-! ## Heap facts for plan immutability -/

theorem heapGet_set_ne (h : List (List String)) (r q : Nat)
    (v : List String) (hq : q ≠ r) :
    heapGet (heapSet h r v) q = heapGet h q := by
  unfold heapGet heapSet
  rw [List.getD_eq_getElem?_getD, List.getD_eq_getElem?_getD,
    List.getElem?_set_ne (Ne.symm hq)]

theorem heapGet_append_sing (h : List (List String)) (v : List String)
    (q : Nat) (hq : q < h.length) :
    heapGet (h ++ [v]) q = heapGet h q := by
  unfold heapGet
  rw [List.getD_eq_getElem?_getD, List.getD_eq_getElem?_getD,
    List.getElem?_append_left hq]

theorem maybe_add_scale_heap_get_ne (h : List (List String)) (r : Nat)
    (height : Option Int) (h2 : List (List String)) (q : Nat) (hq : q ≠ r)
    (hh : maybe_add_scale_heap h r height = some h2) :
    heapGet h2 q = heapGet h q := by
  unfold maybe_add_scale_heap at hh
  rcases height with _ | hv
  · simp only [Option.some.injEq] at hh
    subst hh
    rfl
  · simp only at hh
    split at hh
    · split at hh
      · split at hh
        · simp only [Option.some.injEq] at hh
          subst hh
          exact heapGet_set_ne h r q _ hq
        · exact absurd hh (by simp)
      · simp only [Option.some.injEq] at hh
        subst hh
        exact heapGet_set_ne h r q _ hq
    · simp only [Option.some.injEq] at hh
      subst hh
      rfl

theorem maybe_add_scale_heap_length (h : List (List String)) (r : Nat)
    (height : Option Int) (h2 : List (List String))
    (hh : maybe_add_scale_heap h r height = some h2) :
    h2.length = h.length := by
  unfold maybe_add_scale_heap at hh
  rcases height with _ | hv
  · simp only [Option.some.injEq] at hh
    subst hh
    rfl
  · simp only at hh
    split at hh
    · split at hh
      · split at hh
        · simp only [Option.some.injEq] at hh
          subst hh
          exact List.length_set h _ _
        · exact absurd hh (by simp)
      · simp only [Option.some.injEq] at hh
        subst hh
        exact List.length_set h _ _
    · simp only [Option.some.injEq] at hh
      subst hh
      rfl

theorem fileArgsStep_preserves (h : List (List String)) (planRef : Nat)
    (re : Bool) (height : Option Int) (h2 : List (List String)) (r2 : Nat)
    (hlt : planRef < h.length)
    (hh : fileArgsStep h planRef re height = some (h2, r2)) :
    heapGet h2 planRef = heapGet h planRef ∧ planRef < h2.length := by
  unfold fileArgsStep listCopyAlloc at hh
  by_cases hre : re = true
  · simp only [hre, if_true, Option.some.injEq, Prod.mk.injEq] at hh
    obtain ⟨rfl, rfl⟩ := hh
    exact ⟨heapGet_append_sing h _ planRef hlt, by simp; omega⟩
  · simp only [hre, Bool.false_eq_true, if_false,
      Option.map_eq_some'] at hh
    obtain ⟨h3, hh3, heq⟩ := hh
    have hh2 : h3 = h2 := congrArg Prod.fst heq
    subst hh2
    have hne : planRef ≠ h.length := by omega
    have hga : heapGet h3 planRef = heapGet (h ++ [heapGet h planRef]) planRef :=
      maybe_add_scale_heap_get_ne _ _ _ _ _ hne hh3
    have hlen : h3.length = h.length + 1 := by
      rw [maybe_add_scale_heap_length _ _ _ _ hh3]
      simp
    refine ⟨?_, by omega⟩
    rw [hga, heapGet_append_sing h _ planRef hlt]

theorem heapGet_set_self (h : List (List String)) (r : Nat)
    (v : List String) (hlt : r < h.length) :
    heapGet (heapSet h r v) r = v := by
  unfold heapGet heapSet
  rw [List.getD_eq_getElem?_getD, List.getElem?_set_self hlt]
  rfl

theorem runArgsHeap_preserves (planRef : Nat) (re : Bool) :
    ∀ (heights : List (Option Int)) (h h2 : List (List String)),
      planRef < h.length →
      runArgsHeap h planRef re heights = some h2 →
      heapGet h2 planRef = heapGet h planRef := by
  intro heights
  induction heights with
  | nil =>
    intro h h2 _ hh
    simp only [runArgsHeap, Option.some.injEq] at hh
    subst hh
    rfl
  | cons ht rest ih =>
    intro h h2 hlt hh
    rw [runArgsHeap] at hh
    rcases hstep : fileArgsStep h planRef re ht with _ | ⟨h3, r3⟩
    · rw [hstep] at hh
      simp at hh
    · rw [hstep] at hh
      simp only at hh
      obtain ⟨hget, hlt2⟩ :=
        fileArgsStep_preserves h planRef re ht h3 r3 hlt hstep
      rw [ih h3 h2 hlt2 hh, hget]

theorem maybe_add_scale_heap_agree (h : List (List String)) (r : Nat)
    (height : Option Int) (h2 : List (List String)) (hlt : r < h.length)
    (hh : maybe_add_scale_heap h r height = some h2) :
    maybe_add_scale (heapGet h r) height = some (heapGet h2 r) := by
  unfold maybe_add_scale_heap at hh
  unfold maybe_add_scale
  rcases height with _ | hv
  · simp only [Option.some.injEq] at hh
    subst hh
    rfl
  · simp only at hh ⊢
    by_cases hcond : hv ≠ 0 ∧ hv > 1080
    · by_cases hmem : "-vf" ∈ heapGet h r
      · by_cases hidx :
          List.indexOf "-vf" (heapGet h r) + 1 < (heapGet h r).length
        · rw [if_pos hcond, if_pos hmem, dif_pos hidx] at hh ⊢
          simp only [Option.some.injEq] at hh
          subst hh
          rw [heapGet_set_self _ _ _ hlt]
        · rw [if_pos hcond, if_pos hmem, dif_neg hidx] at hh
          exact absurd hh (by simp)
      · rw [if_pos hcond, if_neg hmem] at hh ⊢
        simp only [Option.some.injEq] at hh
        subst hh
        rw [heapGet_set_self _ _ _ hlt]
    · rw [if_neg hcond] at hh ⊢
      simp only [Option.some.injEq] at hh
      subst hh
      rfl

/-! ## Auxiliary string facts for the claims -/

theorem string_mk_data (s : String) : String.mk s.data = s := by
  rcases s with ⟨d⟩
  rfl

theorem isPrefixOf_append_self {α} [BEq α] [LawfulBEq α] :
    ∀ (l r : List α), l.isPrefixOf (l ++ r) = true := by
  intro l r
  induction l with
  | nil => simp [List.isPrefixOf]
  | cons a t ih => simp [List.isPrefixOf, ih]

theorem strStartsWith_append (pre rest : String) :
    strStartsWith (pre ++ rest) pre = true := by
  unfold strStartsWith
  rw [String.data_append]
  exact isPrefixOf_append_self pre.data rest.data

theorem strDrop_append (pre rest : String) (n : Nat)
    (hn : pre.data.length = n) : strDrop (pre ++ rest) n = rest := by
  unfold strDrop
  rw [String.data_append, List.drop_left' hn]

theorem intDecimal_no_space (n : Int) :
    ∀ c ∈ (intDecimal n).data, isPySpace c = false := by
  intro c hc
  unfold intDecimal at hc
  split at hc
  · rw [String.data_append] at hc
    rcases List.mem_append.mp hc with h1 | h1
    · have : c = '-' := by simpa using h1
      subst this
      rfl
    · exact natDecimal_no_space _ c h1
  · exact natDecimal_no_space _ c hc

/-! ## The claims -/

/-- C2. For every sequence of input lines fed to the progress parser
(including malformed, blank, decreasing-valued, or unrecognized lines),
parsing never raises an error — the transition is a total function — and
the trace of `processed` values is monotonically non-decreasing; an
`out_time_ms` line updates the state only if its converted value is ≥ the
current processed value, and malformed values leave the state
unchanged. -/
theorem claim_C2 :
    (∀ (lines : List String) (st : ℚ × Option String),
      List.Chain' (fun a b => a.1 ≤ b.1) (parserTrace st lines)) ∧
    (∀ (line : String) (st : ℚ × Option String),
      st.1 ≤ (parseStep st line).1) ∧
    (∀ (s : String) (p : ℚ) (sp : Option String),
      strStartsWith s "out_time_ms=" = true → pyInt? (strDrop s 12) = none →
      consumeLine s p sp = (p, sp)) ∧
    (∀ (s : String) (p : ℚ) (sp : Option String) (n : Int),
      strStartsWith s "out_time_ms=" = true →
      pyInt? (strDrop s 12) = some n →
      consumeLine s p sp
        = if (n : ℚ) / 1000000 ≥ p then ((n : ℚ) / 1000000, sp)
          else (p, sp)) := by
  refine ⟨fun lines st => parserTrace_chain lines st,
    fun line st => parseStep_mono st line, ?_, ?_⟩
  · intro s p sp hstart hparse
    simp [consumeLine, hstart, hparse]
  · intro s p sp n hstart hparse
    simp [consumeLine, hstart, hparse]

theorem claim_C2_witness :
    consumeLine "out_time_ms=oops" 7 (some "2x") = (7, some "2x") ∧
    consumeLine "out_time_ms=1500000" 7 (some "2x") = (7, some "2x") := by
  constructor
  · exact claim_C2.2.2.1 "out_time_ms=oops" 7 (some "2x") (by decide)
      (by decide)
  · have h := claim_C2.2.2.2 "out_time_ms=1500000" 7 (some "2x") 1500000
      (by decide) (by decide)
    rw [h]
    norm_num

/-- C7. For every well-formed line `out_time_ms=<n>` with integer `n`,
the parser converts the value to seconds by dividing `n` by 1 000 000 (the
field is microsecond-scaled despite its `ms` name). -/
theorem claim_C7 (n : Int) (p : ℚ) (sp : Option String) :
    parseStep (p, sp) ("out_time_ms=" ++ intDecimal n)
      = if (n : ℚ) / 1000000 ≥ p then ((n : ℚ) / 1000000, sp)
        else (p, sp) := by
  have hall : ∀ c ∈ ("out_time_ms=" ++ intDecimal n).data,
      isPySpace c = false := by
    intro c hc
    rw [String.data_append] at hc
    have hpre : ∀ c ∈ ("out_time_ms=" : String).data, isPySpace c = false := by
      decide
    rcases List.mem_append.mp hc with h1 | h1
    · exact hpre c h1
    · exact intDecimal_no_space n c h1
  have hstrip := pyStrip_eq_self hall
  have hne : ¬ ("out_time_ms=" ++ intDecimal n) = "" := by
    intro h
    have hd := congrArg String.data h
    rw [String.data_append] at hd
    have : ("out_time_ms=" : String).data = [] := by
      rcases List.append_eq_nil.mp hd with ⟨h1, _⟩
      exact h1
    exact absurd this (by decide)
  rw [parseStep, hstrip]
  simp only [if_neg hne]
  rw [consumeLine, if_pos (strStartsWith_append "out_time_ms=" (intDecimal n)),
    strDrop_append "out_time_ms=" (intDecimal n) 12 (by decide),
    pyInt?_intDecimal]

/-- C3. `maybe_add_scale` adds a downscale-to-1080 filter only when
the probed height exists and exceeds 1080; with an existing `-vf` flag the
scale expression is appended to the value of that flag with a comma (no second
`-vf` flag, the list length is unchanged); otherwise `-vf scale=-2:1080`
is appended; with the height absent or ≤ 1080 the list is returned
unchanged. -/
theorem claim_C3 (args : List String) (h : Option Int) :
    (h = none → maybe_add_scale args h = some args) ∧
    (∀ hv : Int, h = some hv → hv ≤ 1080 →
      maybe_add_scale args h = some args) ∧
    (∀ hv : Int, h = some hv → 1080 < hv → "-vf" ∉ args →
      maybe_add_scale args h = some (args ++ ["-vf", "scale=-2:1080"])) ∧
    (∀ hv : Int, h = some hv → 1080 < hv → "-vf" ∈ args →
      List.indexOf "-vf" args + 1 < args.length →
      maybe_add_scale args h
          = some (args.set (List.indexOf "-vf" args + 1)
              (args.getD (List.indexOf "-vf" args + 1) ""
                ++ ",scale=-2:1080")) ∧
        (maybe_add_scale args h).map List.length = some args.length) := by
  refine ⟨?_, ?_, ?_, ?_⟩
  · intro hnone
    subst hnone
    rfl
  · intro hv hsome hle
    subst hsome
    have hcond : ¬ (hv ≠ 0 ∧ hv > 1080) := by omega
    simp [maybe_add_scale, hcond]
  · intro hv hsome hgt hmem
    subst hsome
    have hcond : hv ≠ 0 ∧ hv > 1080 := by omega
    simp [maybe_add_scale, hcond, hmem]
  · intro hv hsome hgt hmem hidx
    subst hsome
    have hcond : hv ≠ 0 ∧ hv > 1080 := by omega
    have hgd : args.getD (List.indexOf "-vf" args + 1) ""
        = args.get ⟨List.indexOf "-vf" args + 1, hidx⟩ := by
      rw [List.getD_eq_getElem?_getD, List.getElem?_eq_getElem hidx]
      rfl
    constructor
    · simp only [maybe_add_scale, if_pos hcond, if_pos hmem, dif_pos hidx,
        Option.some.injEq]
      rw [hgd]
      rfl
    · simp only [maybe_add_scale, if_pos hcond, if_pos hmem, dif_pos hidx,
        Option.map_some', Option.some.injEq]
      exact List.length_set args _ _

theorem claim_C3_witness :
    maybe_add_scale ["-c:v", "libx264"] (some 1440)
      = some ["-c:v", "libx264", "-vf", "scale=-2:1080"] := by
  have h := (claim_C3 ["-c:v", "libx264"] (some 1440)).2.2.1 1440 rfl
    (by norm_num) (by decide)
  simpa using h

/-- C8. `build_plan` succeeds exactly for the three recognized modes
and fails (the `ValueError`, modelled as `none`) for any other input; the
audio-only plan has `replace_ext = true` and the audio extension `.m4a`
as its output suffix, while the quality and size plans both have
`replace_ext = false`. -/
theorem claim_C8 :
    (∀ mode : String, (build_plan mode).isSome
        ↔ (mode = "quality" ∨ mode = "size" ∨ mode = "audio")) ∧
    (build_plan "audio").map EncodePlan.replace_ext = some true ∧
    (build_plan "audio").map EncodePlan.out_suffix = some ".m4a" ∧
    (build_plan "quality").map EncodePlan.replace_ext = some false ∧
    (build_plan "size").map EncodePlan.replace_ext = some false := by
  refine ⟨?_, rfl, rfl, rfl, rfl⟩
  intro mode
  unfold build_plan
  split_ifs with h1 h2 h3 <;> simp [*]

theorem claim_C8_witness :
    (build_plan "audio").isSome = true ∧ (build_plan "flac").isSome = false := by
  constructor
  · exact (claim_C8.1 "audio").mpr (Or.inr (Or.inr rfl))
  · by_contra hcon
    simp only [Bool.not_eq_false] at hcon
    rcases (claim_C8.1 "flac").mp hcon with h | h | h <;>
      exact absurd h (by decide)

/-- C4. `ensure_unique_path` returns the candidate itself when no file
of that name exists; otherwise it appends `_1`, `_2`, ... to the stem,
taking the first index whose name does not exist: for an existing
`video.mp4` the result is `video_1.mp4`, and if that also exists,
`video_2.mp4`. -/
theorem claim_C4 (p : FsPath) (fs : List String) :
    (p.str ∉ fs → ensure_unique_path p fs = p) ∧
    (p.str ∈ fs → (candPath p 1).str ∉ fs →
      ensure_unique_path p fs = candPath p 1) ∧
    (p.str ∈ fs → (candPath p 1).str ∈ fs → (candPath p 2).str ∉ fs →
      ensure_unique_path p fs = candPath p 2) := by
  refine ⟨ensure_unique_path_of_not_mem, ?_, ?_⟩
  · intro hmem h1
    rw [ensure_unique_path_of_mem hmem]
    congr 1
    rw [Nat.find_eq_iff]
    refine ⟨⟨Nat.one_pos, h1⟩, ?_⟩
    intro m hm
    have : m = 0 := by omega
    subst this
    simp
  · intro hmem h1 h2
    rw [ensure_unique_path_of_mem hmem]
    congr 1
    rw [Nat.find_eq_iff]
    refine ⟨⟨by omega, h2⟩, ?_⟩
    intro m hm
    have hm2 : m = 0 ∨ m = 1 := by omega
    rcases hm2 with rfl | rfl
    · simp
    · simp [h1]

theorem claim_C4_witness :
    ensure_unique_path ⟨"out", "video", ".mp4"⟩
        ["out/video.mp4", "out/video_1.mp4"]
      = candPath ⟨"out", "video", ".mp4"⟩ 2 ∧
    candPath ⟨"out", "video", ".mp4"⟩ 2 = ⟨"out", "video_2", ".mp4"⟩ := by
  constructor
  · exact (claim_C4 ⟨"out", "video", ".mp4"⟩
      ["out/video.mp4", "out/video_1.mp4"]).2.2 (by decide) (by decide)
      (by decide)
  · decide

/-- C10. For every candidate path and every finite set of
already-existing paths, `ensure_unique_path` terminates (it is a total
function of the path and the finite filesystem), its result is not a
member of the existing set, it is the candidate itself when the candidate
does not exist, and otherwise it is the candidate name with the smallest
positive suffix index whose name does not exist. -/
theorem claim_C10 (p : FsPath) (fs : List String) :
    (ensure_unique_path p fs).str ∉ fs ∧
    (p.str ∉ fs → ensure_unique_path p fs = p) ∧
    (p.str ∈ fs → ∃ i, 0 < i ∧ ensure_unique_path p fs = candPath p i ∧
      (candPath p i).str ∉ fs ∧
      ∀ j, 0 < j → j < i → (candPath p j).str ∈ fs) := by
  refine ⟨?_, ensure_unique_path_of_not_mem, ?_⟩
  · by_cases hmem : p.str ∈ fs
    · rw [ensure_unique_path_of_mem hmem]
      exact (ensure_unique_path_spec p fs).2.1
    · rw [ensure_unique_path_of_not_mem hmem]
      exact hmem
  · intro hmem
    obtain ⟨h1, h2, h3⟩ := ensure_unique_path_spec p fs
    exact ⟨Nat.find (exists_free_index p fs), h1,
      ensure_unique_path_of_mem hmem, h2, h3⟩

theorem claim_C10_witness :
    ∃ i, 0 < i ∧
      ensure_unique_path ⟨"d", "a", ".txt"⟩ ["d/a.txt"]
        = candPath ⟨"d", "a", ".txt"⟩ i ∧
      (candPath ⟨"d", "a", ".txt"⟩ i).str ∉ ["d/a.txt"] ∧
      ∀ j, 0 < j → j < i →
        (candPath ⟨"d", "a", ".txt"⟩ j).str ∈ ["d/a.txt"] :=
  (claim_C10 ⟨"d", "a", ".txt"⟩ ["d/a.txt"]).2.2 (by decide)

/-- C5. For every file whose encoder process is launched and exits,
the emitted `end_file` event has ok true iff the exit code is zero; a
non-zero exit is non-fatal (the run continues with the remaining files);
the done counter in the following `overall` event is incremented only on
success, and done never exceeds the total file count in any `overall`
event of a completed run. -/
theorem claim_C5 (fs : List String) (stop : Nat → Bool) (clock : Nat → ℚ)
    (plan : EncodePlan) (outDir : String) (total : Nat) (f : FileJob)
    (rest : List FileJob) (cc tc done : Nat) (oname : String)
    (as : List String)
    (hout : outName plan f = some oname) (hargs : argsFor plan f = some as)
    (hl : f.launch = LaunchOutcome.ok) (hexn : f.exn = none)
    (hstop : stop cc = false)
    (hc : (runLines stop clock f.duration f.lines (cc + 1) (tc + 1)
        (clock tc) 0 none).cancelled = false) :
    (processFile fs stop clock plan outDir total f (cc + 1) tc done).events
      = Event.start_file f.name f.duration ::
          (runLines stop clock f.duration f.lines (cc + 1) (tc + 1)
            (clock tc) 0 none).events ++
          [Event.end_file (f.exitCode == 0) f.name
             (ensure_unique_path
               ⟨outDir, (splitName oname).1, (splitName oname).2⟩ fs).str,
           Event.overall (if f.exitCode == 0 then done + 1 else done)
             total] ∧
    ((f.exitCode == 0) = true ↔ f.exitCode = 0) ∧
    workerGo fs stop clock plan outDir total (f :: rest) cc tc done
      = (workerGo fs stop clock plan outDir total rest
          (processFile fs stop clock plan outDir total f (cc + 1) tc done).cc
          (processFile fs stop clock plan outDir total f (cc + 1) tc done).tc
          (if f.exitCode == 0 then done + 1 else done)).map
          (fun tail =>
            (processFile fs stop clock plan outDir total f (cc + 1) tc
              done).events ++ tail) ∧
    (∀ (files : List FileJob) (E : List Event),
      worker_thread files plan outDir fs stop clock = some E →
      ∀ d t, Event.overall d t ∈ E → d ≤ t) := by
  have heq := processFile_normal_eq fs stop clock plan outDir total f
    (cc + 1) tc done oname as hout hargs hl hexn hc
  refine ⟨by rw [heq], beq_iff_eq, ?_, ?_⟩
  · have hdone : (processFile fs stop clock plan outDir total f (cc + 1) tc
        done).done = (if f.exitCode == 0 then done + 1 else done) := by
      rw [heq]
    rw [workerGo_cons_continue fs stop clock plan outDir total f rest cc tc
      done hstop (by rw [heq]) (by rw [heq]) (by rw [heq]), hdone]
  · intro files E hE d t hmem
    exact (workerGo_overall_le fs stop clock plan outDir files.length files
      0 0 0 E (by omega) hE d t hmem).1

theorem claim_C5_witness :
    (processFile [] (fun _ => false) (fun _ => (0 : ℚ))
        ⟨["-c"], "_x.mp4", false⟩ "o" 2
        ⟨"a", "", none, none, LaunchOutcome.ok, [], none, 1⟩ 1 0 0).events
      = [Event.start_file "a" none, Event.end_file false "a" "o/a_x.mp4",
         Event.overall 0 2] := by
  have h := (claim_C5 [] (fun _ => false) (fun _ => (0 : ℚ))
    ⟨["-c"], "_x.mp4", false⟩ "o" 2
    ⟨"a", "", none, none, LaunchOutcome.ok, [], none, 1⟩ [] 0 0 0
    "a_x.mp4" ["-c"] rfl rfl rfl rfl rfl rfl).1
  exact h.trans (by decide)

/-- C6. A failure to launch the encoder process (binary not found or
any spawn error) is fatal to the entire batch: exactly one `error` event
is emitted, no further files are processed (no event of theirs appears),
and — the run not having ended via `cancelled` — exactly one `done_all`
is still emitted afterwards. -/
theorem claim_C6 (fs : List String) (stop : Nat → Bool) (clock : Nat → ℚ)
    (plan : EncodePlan) (outDir : String) (total : Nat) (f : FileJob)
    (rest : List FileJob) (cc tc done : Nat) (oname : String)
    (as : List String)
    (hout : outName plan f = some oname) (hargs : argsFor plan f = some as)
    (hstop : stop cc = false) :
    (f.launch = LaunchOutcome.fileNotFound →
      workerGo fs stop clock plan outDir total (f :: rest) cc tc done
        = some [Event.start_file f.name f.duration,
                Event.error msgFfmpegMissing, Event.done_all]) ∧
    (∀ e, f.launch = LaunchOutcome.spawnError e →
      workerGo fs stop clock plan outDir total (f :: rest) cc tc done
        = some [Event.start_file f.name f.duration,
                Event.error (msgSpawn e), Event.done_all]) := by
  constructor
  · intro hl
    have heq := processFile_notFound_eq fs stop clock plan outDir total f
      (cc + 1) tc done oname as hout hargs hl
    rw [workerGo_cons_broke fs stop clock plan outDir total f rest cc tc
      done hstop (by rw [heq]) (by rw [heq]) (by rw [heq]), heq]
    rfl
  · intro e hl
    have heq := processFile_spawn_eq fs stop clock plan outDir total f
      (cc + 1) tc done oname as e hout hargs hl
    rw [workerGo_cons_broke fs stop clock plan outDir total f rest cc tc
      done hstop (by rw [heq]) (by rw [heq]) (by rw [heq]), heq]
    rfl

theorem claim_C6_witness :
    workerGo [] (fun _ => false) (fun _ => (0 : ℚ))
        ⟨["-c"], "_x.mp4", false⟩ "o" 2
        [⟨"a", ".mp4", none, none, LaunchOutcome.fileNotFound, [], none, 0⟩,
         ⟨"b", ".mp4", none, none, LaunchOutcome.ok, [], none, 0⟩] 0 0 0
      = some [Event.start_file "a.mp4" none,
              Event.error msgFfmpegMissing, Event.done_all] :=
  (claim_C6 [] (fun _ => false) (fun _ => (0 : ℚ))
    ⟨["-c"], "_x.mp4", false⟩ "o" 2
    ⟨"a", ".mp4", none, none, LaunchOutcome.fileNotFound, [], none, 0⟩
    [⟨"b", ".mp4", none, none, LaunchOutcome.ok, [], none, 0⟩] 0 0 0
    "a_x.mp4" ["-c"] rfl rfl rfl).1 rfl

/-- C1 (amended).  The event stream of every completed run is terminated by
exactly one terminal event — one `done_all` or one `cancelled`, never both
and never neither — and that terminal event is the last event.  When the
cancellation signal is observed at a per-line check while a subprocess is
running, the orchestrator immediately emits `cancelled` and stops.  When
the signal is observed at the top-of-loop check before starting a file,
no `start_file` is emitted for that or any later file and the stream
terminates with `done_all` (not `cancelled`). -/
theorem claim_C1_amended (fs : List String) (stop : Nat → Bool)
    (clock : Nat → ℚ) (plan : EncodePlan) (outDir : String) :
    (∀ (files : List FileJob) (E : List Event),
      worker_thread files plan outDir fs stop clock = some E →
      E.countP Event.isTerminal = 1 ∧
      ∃ e, E.getLast? = some e ∧ Event.isTerminal e = true) ∧
    (∀ (files : List FileJob) (total cc tc done : Nat), stop cc = true →
      workerGo fs stop clock plan outDir total files cc tc done
        = some [Event.done_all]) ∧
    (∀ (duration : Option ℚ) (line : String) (restL : List String)
        (cc tc : Nat) (le pr : ℚ) (sp : Option String), stop cc = true →
      runLines stop clock duration (line :: restL) cc tc le pr sp
        = ⟨[Event.cancelled], true, cc + 1, tc⟩) := by
  refine ⟨?_, ?_, ?_⟩
  · intro files E hE
    exact workerGo_terminal fs stop clock plan outDir files.length files
      0 0 0 E hE
  · intro files total cc tc done h
    exact workerGo_stop fs stop clock plan outDir total files cc tc done h
  · intro duration line restL cc tc le pr sp h
    exact runLines_stop stop clock duration line restL cc tc le pr sp h

theorem claim_C1_witness :
    ([Event.done_all].countP Event.isTerminal = 1) ∧
    workerGo [] (fun _ => true) (fun _ => (0 : ℚ)) ⟨["-c"], "_x.mp4", false⟩
        "o" 1 [⟨"a", ".mp4", none, none, LaunchOutcome.ok, [], none, 0⟩]
        0 0 0
      = some [Event.done_all] ∧
    runLines (fun _ => true) (fun _ => (0 : ℚ)) none ["x"] 0 0 0 0 none
      = ⟨[Event.cancelled], true, 1, 0⟩ := by
  refine ⟨?_, ?_, ?_⟩
  · exact ((claim_C1_amended [] (fun _ => true) (fun _ => (0 : ℚ))
      ⟨["-c"], "_x.mp4", false⟩ "o").1 [] [Event.done_all] rfl).1
  · exact (claim_C1_amended [] (fun _ => true) (fun _ => (0 : ℚ))
      ⟨["-c"], "_x.mp4", false⟩ "o").2.1
      [⟨"a", ".mp4", none, none, LaunchOutcome.ok, [], none, 0⟩] 1 0 0 0 rfl
  · exact (claim_C1_amended [] (fun _ => true) (fun _ => (0 : ℚ))
      ⟨["-c"], "_x.mp4", false⟩ "o").2.2 none "x" [] 0 0 0 0 none rfl

/-- C1 (counterexample to the claim as stated).  A two-file run in
which the cancellation signal is clear at the first flag check (the run
starts normally) and set from the second flag check onwards — i.e. the
signal is set while the run is in progress — yet the stream terminates
with `done_all`, not `cancelled`: the signal is observed at the
top-of-loop check before file 2, which `break`s out to the final
`q.put(done_all)`.  (The part of the claim that fails is "whenever the
cancellation signal is set while a run is in progress, the stream
terminates with `Cancelled`"; no `start_file` for file `b` appears, so
that part of the claim holds.) -/
theorem claim_C1_counterexample :
    worker_thread
        [⟨"a", ".mp4", none, none, LaunchOutcome.ok, [], none, 0⟩,
         ⟨"b", ".mp4", none, none, LaunchOutcome.ok, [], none, 0⟩]
        ⟨["-c"], "_x.mp4", false⟩ "o" [] (fun n => decide (1 ≤ n))
        (fun _ => (0 : ℚ))
      = some [Event.start_file "a.mp4" none,
              Event.end_file true "a.mp4" "o/a_x.mp4",
              Event.overall 1 2, Event.done_all] ∧
    (fun n => decide (1 ≤ n)) 0 = false ∧
    (fun n => decide (1 ≤ n)) 1 = true ∧
    Event.cancelled ∉
      [Event.start_file "a.mp4" none,
       Event.end_file true "a.mp4" "o/a_x.mp4",
       Event.overall 1 2, Event.done_all] ∧
    [Event.start_file "a.mp4" none,
     Event.end_file true "a.mp4" "o/a_x.mp4",
     Event.overall 1 2, Event.done_all].getLast? = some Event.done_all := by
  refine ⟨by decide, rfl, rfl, by decide, rfl⟩

theorem heapGet_concat_self (h : List (List String)) (v : List String) :
    heapGet (h ++ [v]) h.length = v := by
  unfold heapGet
  rw [List.getD_eq_getElem?_getD, List.getElem?_concat_length]
  rfl

/-- C9. An `EncodePlan` is immutable once constructed: over a run on
any list of files, the argument list of the plan (the heap cell the plan
holds) is identical before and after the run, and each per-file argument
list is computed from the plan arguments alone — the orchestrator
applies the resolution cap only to a fresh copy (`args = list(plan.args)`)
— even though `maybe_add_scale` mutates the list object it is handed in
place.  (The output suffix and replace-extension flag of the plan are a string
and a bool, immutable Python values the worker never rebinds; only the
argument list is a mutable object, modelled by the heap.) -/
theorem claim_C9 :
    (∀ (heights : List (Option Int)) (h : List (List String))
        (planRef : Nat) (re : Bool) (h2 : List (List String)),
      planRef < h.length →
      runArgsHeap h planRef re heights = some h2 →
      heapGet h2 planRef = heapGet h planRef) ∧
    (∀ (h : List (List String)) (planRef : Nat) (re : Bool)
        (height : Option Int) (h2 : List (List String)) (r2 : Nat),
      planRef < h.length →
      fileArgsStep h planRef re height = some (h2, r2) →
      (if re then some (heapGet h planRef)
       else maybe_add_scale (heapGet h planRef) height)
        = some (heapGet h2 r2)) ∧
    (∀ (h : List (List String)) (r : Nat) (hv : Int),
      "-vf" ∉ heapGet h r → 1080 < hv →
      maybe_add_scale_heap h r (some hv)
        = some (heapSet h r (heapGet h r ++ ["-vf", "scale=-2:1080"]))) := by
  refine ⟨?_, ?_, ?_⟩
  · intro heights h planRef re h2 hlt hh
    exact runArgsHeap_preserves planRef re heights h h2 hlt hh
  · intro h planRef re height h2 r2 hlt hh
    unfold fileArgsStep listCopyAlloc at hh
    by_cases hre : re = true
    · simp only [hre, if_true, Option.some.injEq, Prod.mk.injEq] at hh
      obtain ⟨rfl, rfl⟩ := hh
      rw [if_pos hre, heapGet_concat_self]
    · simp only [hre, Bool.false_eq_true, if_false,
        Option.map_eq_some'] at hh
      obtain ⟨h3, hh3, heq⟩ := hh
      have hh2 : h3 = h2 := congrArg Prod.fst heq
      have hr2 : h.length = r2 := congrArg Prod.snd heq
      subst hh2
      subst hr2
      rw [if_neg hre]
      have := maybe_add_scale_heap_agree (h ++ [heapGet h planRef]) h.length
        height h3 (by simp) hh3
      rw [heapGet_concat_self] at this
      exact this
  · intro h r hv hmem hgt
    have hcond : hv ≠ 0 ∧ hv > 1080 := by omega
    simp only [maybe_add_scale_heap]
    rw [if_pos hcond, if_neg hmem]

theorem claim_C9_witness :
    heapGet [["-c"], ["-c", "-vf", "scale=-2:1080"]] 0 = heapGet [["-c"]] 0 :=
  claim_C9.1 [some 1440] [["-c"]] 0 false
    [["-c"], ["-c", "-vf", "scale=-2:1080"]] (by decide) (by decide)
